import Mathlib

/-!
# Verification of the ADEX pagination / layout engine specification

This file shallowly embeds the parts of the ADEX repository that the
specification's claims are about, and proves (or refutes) each claim.

* `Diff` — the comment-key hashing of the Incremental Diff Engine
  (`getCommentKey` in `diff.ts`, mirrored verbatim in its unit-test file).
* `TabResolver` — the Tab Stop Resolver (`calculateTabLayout`,
  `applyLayoutResult` in `tabAdapter.js`).
* `Packer` — the Page Packer (`layoutDocument` of the layout engine).
-/

namespace Diff

/-- A single comment attached to a run.  In the TypeScript source both
fields are optional (`commentId?: string; internal?: boolean`), which we
model with `Option`. -/
structure CommentAnn where
  commentId : Option String
  internal : Option Bool
deriving DecidableEq, Repr

/-- The `comments` field of a run as JavaScript sees it: it may be absent
from the object, present but not an array (`undefined`, `null`, a string,
a number, an object, …), or an actual array of comment annotations. -/
inductive CommentsField where
  | absent
  | nonArray
  | array (cs : List CommentAnn)
deriving DecidableEq, Repr

/-- A run, reduced to the fields `getCommentKey` can observe.  The text
field stands in for the structural/style payload that the diff key also
hashes; `getCommentKey` itself reads only `comments`. -/
structure Run where
  text : String
  comments : CommentsField
deriving DecidableEq, Repr

/-- `hasComments(run)`: `'comments' in run && Array.isArray(run.comments)
&& run.comments.length > 0`, from the source type guard. -/
def hasComments (run : Run) : Bool :=
  match run.comments with
  | .array cs => decide (0 < cs.length)
  | _ => false

/-- The key of one comment: `` `${c.commentId ?? ''}:${c.internal ? '1' : '0'}` ``. -/
def commentPairKey (c : CommentAnn) : String :=
  (c.commentId.getD "") ++ ":" ++ (if c.internal.getD false then "1" else "0")

/-- JavaScript `Array.prototype.join('|')` on a list of strings. -/
def joinBar : List String → String
  | [] => ""
  | [s] => s
  | s :: rest => s ++ "|" ++ joinBar rest

/-- `getCommentKey(run)` from `diff.ts`:
`if (!hasComments(run)) return '';`
`return run.comments.map((c) => `...`).join('|');` -/
def getCommentKey (run : Run) : String :=
  if hasComments run then
    match run.comments with
    | .array cs => joinBar (cs.map commentPairKey)
    | _ => ""
  else ""

/-! ### Character-level view of the key, used to reason about
injectivity of the `|`/`:`-separated encoding. -/

/-- The normal form of a comment that the key can distinguish:
`commentId ?? ''` and the truthiness of `internal`. -/
def normComment (c : CommentAnn) : String × Bool :=
  (c.commentId.getD "", c.internal.getD false)

/-- The flag character `'1'`/`'0'`. -/
def bitChar (b : Bool) : Char := if b then '1' else '0'

/-- Char-level key of one normalised comment. -/
def pairChars (p : String × Bool) : List Char :=
  p.1.data ++ [':', bitChar p.2]

/-- Char-level `join('|')`. -/
def joinSep : List (List Char) → List Char
  | [] => []
  | [c] => c
  | c :: rest => c ++ '|' :: joinSep rest

theorem joinBar_data (l : List String) :
    (joinBar l).data = joinSep (l.map String.data) := by
  match l with
  | [] => rfl
  | [s] => rfl
  | s :: t :: rest =>
    show (s ++ "|" ++ joinBar (t :: rest)).data = _
    rw [String.data_append, String.data_append, joinBar_data (t :: rest)]
    simp [joinSep]

theorem commentPairKey_data (c : CommentAnn) :
    (commentPairKey c).data = pairChars (normComment c) := by
  unfold commentPairKey pairChars normComment bitChar
  rw [String.data_append, String.data_append]
  cases h : c.internal.getD false <;> simp

/-- On a run whose comments are a non-empty array, the key's characters
are the `joinSep` of the per-comment `pairChars`. -/
theorem getCommentKey_data (cs : List CommentAnn) (t : String) (h : cs ≠ []) :
    (getCommentKey ⟨t, .array cs⟩).data =
      joinSep ((cs.map normComment).map pairChars) := by
  have hlen : 0 < cs.length := List.length_pos.mpr h
  simp only [getCommentKey, hasComments, decide_eq_true_eq, hlen, if_true]
  rw [joinBar_data]
  congr 1
  simp [commentPairKey_data]

/-- Splitting at the first occurrence of a separator is unambiguous when
neither prefix contains the separator. -/
theorem sep_split_unique (sep : Char) (a₁ : List Char) :
    ∀ (a₂ b₁ b₂ : List Char), sep ∉ a₁ → sep ∉ a₂ →
      a₁ ++ sep :: b₁ = a₂ ++ sep :: b₂ → a₁ = a₂ ∧ b₁ = b₂ := by
  induction a₁ with
  | nil =>
    intro a₂ b₁ b₂ _ h₂ h
    cases a₂ with
    | nil => simpa using h
    | cons x t =>
      exfalso
      simp only [List.nil_append, List.cons_append, List.cons.injEq] at h
      refine h₂ ?_
      rw [h.1]
      exact List.mem_cons_self x t
  | cons x t ih =>
    intro a₂ b₁ b₂ h₁ h₂ h
    cases a₂ with
    | nil =>
      exfalso
      simp only [List.nil_append, List.cons_append, List.cons.injEq] at h
      refine h₁ ?_
      rw [← h.1]
      exact List.mem_cons_self x t
    | cons y u =>
      simp only [List.cons_append, List.cons.injEq] at h
      obtain ⟨rfl, h⟩ := h
      obtain ⟨rfl, rfl⟩ := ih u b₁ b₂ (fun hm => h₁ (List.mem_cons_of_mem _ hm))
        (fun hm => h₂ (List.mem_cons_of_mem _ hm)) h
      exact ⟨rfl, rfl⟩

/-- A chunk list is good when every chunk is nonempty and free of the
separator. -/
def goodChunks (l : List (List Char)) : Prop :=
  ∀ c ∈ l, c ≠ [] ∧ '|' ∉ c

theorem joinSep_ne_nil {l : List (List Char)} (hl : goodChunks l) (h : l ≠ []) :
    joinSep l ≠ [] := by
  match l with
  | [] => exact absurd rfl h
  | [c] => exact (hl c (List.mem_singleton.mpr rfl)).1
  | c :: d :: rest =>
    show c ++ '|' :: joinSep (d :: rest) ≠ []
    simp

/-- `join('|')` is injective on good chunk lists. -/
theorem joinSep_injective (l₁ : List (List Char)) :
    ∀ (l₂ : List (List Char)), goodChunks l₁ → goodChunks l₂ →
      joinSep l₁ = joinSep l₂ → l₁ = l₂ := by
  induction l₁ with
  | nil =>
    intro l₂ _ h₂ h
    cases l₂ with
    | nil => rfl
    | cons d u => exact absurd h.symm (joinSep_ne_nil h₂ (by simp))
  | cons c t ih =>
    intro l₂ h₁ h₂ h
    cases l₂ with
    | nil => exact absurd h (joinSep_ne_nil h₁ (by simp))
    | cons d u =>
      cases t with
      | nil =>
        cases u with
        | nil => simpa [joinSep] using h
        | cons d₂ u₂ =>
          exfalso
          have hc : joinSep [c] = c := rfl
          rw [hc] at h
          have : '|' ∈ c := by
            rw [h]
            show '|' ∈ d ++ '|' :: joinSep (d₂ :: u₂)
            simp
          exact (h₁ c (by simp)).2 this
      | cons c₂ t₂ =>
        cases u with
        | nil =>
          exfalso
          have hd : joinSep [d] = d := rfl
          rw [hd] at h
          have : '|' ∈ d := by
            rw [← h]
            show '|' ∈ c ++ '|' :: joinSep (c₂ :: t₂)
            simp
          exact (h₂ d (by simp)).2 this
        | cons d₂ u₂ =>
          have h' : c ++ '|' :: joinSep (c₂ :: t₂) = d ++ '|' :: joinSep (d₂ :: u₂) := h
          obtain ⟨rfl, htail⟩ := sep_split_unique '|' c d _ _
            (h₁ c (by simp)).2 (h₂ d (by simp)).2 h'
          have := ih (d₂ :: u₂)
            (fun x hx => h₁ x (List.mem_cons_of_mem _ hx))
            (fun x hx => h₂ x (List.mem_cons_of_mem _ hx)) htail
          rw [this]

/-- A normalised comment is good when its id avoids the two separator
characters. -/
def goodNorm (p : String × Bool) : Prop :=
  '|' ∉ p.1.data ∧ ':' ∉ p.1.data

theorem pairChars_good {p : String × Bool} (hp : goodNorm p) :
    pairChars p ≠ [] ∧ '|' ∉ pairChars p := by
  constructor
  · simp [pairChars]
  · intro hmem
    rcases List.mem_append.mp hmem with hid | hrest
    · exact hp.1 hid
    · rcases List.mem_cons.mp hrest with hc | hb
      · exact absurd hc (by decide)
      · have : '|' = bitChar p.2 := List.mem_singleton.mp hb
        cases hb2 : p.2 <;> rw [hb2] at this <;> exact absurd this (by decide)

theorem bitChar_injective : Function.Injective bitChar := by
  intro a b h
  cases a <;> cases b <;> simp [bitChar] at h ⊢

theorem pairChars_injective : Function.Injective pairChars := by
  intro p q h
  unfold pairChars at h
  have hlen : [':', bitChar p.2].length = [':', bitChar q.2].length := rfl
  obtain ⟨h1, h2⟩ := List.append_inj' h hlen
  have hid : p.1 = q.1 := String.ext h1
  have hbit : p.2 = q.2 := by
    simp only [List.cons.injEq] at h2
    exact bitChar_injective h2.2.1
  exact Prod.ext hid hbit

/-- On runs whose comment ids avoid `|` and `:`, equal keys force equal
normalised comment lists. -/
theorem getCommentKey_inj_on_good (cs₁ cs₂ : List CommentAnn) (t₁ t₂ : String)
    (hg₁ : ∀ c ∈ cs₁, goodNorm (normComment c))
    (hg₂ : ∀ c ∈ cs₂, goodNorm (normComment c))
    (h : getCommentKey ⟨t₁, .array cs₁⟩ = getCommentKey ⟨t₂, .array cs₂⟩) :
    cs₁.map normComment = cs₂.map normComment := by
  have good₁ : goodChunks ((cs₁.map normComment).map pairChars) := by
    intro x hx
    simp only [List.mem_map] at hx
    obtain ⟨p, hp, rfl⟩ := hx
    obtain ⟨c, hc, rfl⟩ := hp
    exact pairChars_good (hg₁ c hc)
  have good₂ : goodChunks ((cs₂.map normComment).map pairChars) := by
    intro x hx
    simp only [List.mem_map] at hx
    obtain ⟨p, hp, rfl⟩ := hx
    obtain ⟨c, hc, rfl⟩ := hp
    exact pairChars_good (hg₂ c hc)
  cases hcs₁ : cs₁ with
  | nil =>
    cases hcs₂ : cs₂ with
    | nil => rfl
    | cons d u =>
      exfalso
      rw [hcs₁, hcs₂] at h
      have hk₁ : getCommentKey ⟨t₁, .array []⟩ = "" := rfl
      have hk₂ := getCommentKey_data (d :: u) t₂ (by simp)
      rw [hk₁] at h
      have : ([] : List Char) = joinSep (((d :: u).map normComment).map pairChars) := by
        rw [← hk₂, ← h]
      exact joinSep_ne_nil (hcs₂ ▸ good₂) (by simp) this.symm
  | cons c t =>
    cases hcs₂ : cs₂ with
    | nil =>
      exfalso
      rw [hcs₁, hcs₂] at h
      have hk₂ : getCommentKey ⟨t₂, .array []⟩ = "" := rfl
      have hk₁ := getCommentKey_data (c :: t) t₁ (by simp)
      rw [hk₂] at h
      have : ([] : List Char) = joinSep (((c :: t).map normComment).map pairChars) := by
        rw [← hk₁, h]
      exact joinSep_ne_nil (hcs₁ ▸ good₁) (by simp) this.symm
    | cons d u =>
      subst hcs₁; subst hcs₂
      have hd₁ := getCommentKey_data (c :: t) t₁ (by simp)
      have hd₂ := getCommentKey_data (d :: u) t₂ (by simp)
      have hjoin : joinSep (((c :: t).map normComment).map pairChars) =
          joinSep (((d :: u).map normComment).map pairChars) := by
        rw [← hd₁, ← hd₂, h]
      have hchunks := joinSep_injective _ _ good₁ good₂ hjoin
      exact List.map_injective_iff.mpr pairChars_injective hchunks


/-- When two normalised comment lists agree on their ids (pointwise, in
order), their chunk lists have equal shapes, so equal joined keys force
the lists themselves to be equal — no goodness assumption needed. -/
theorem joinSep_pair_inj_of_same_ids (ps : List (String × Bool)) :
    ∀ qs : List (String × Bool), ps.map Prod.fst = qs.map Prod.fst →
      joinSep (ps.map pairChars) = joinSep (qs.map pairChars) → ps = qs := by
  induction ps with
  | nil =>
    intro qs hids _
    have : qs.map Prod.fst = [] := hids.symm
    simpa using (List.map_eq_nil.mp this).symm
  | cons p pt ih =>
    intro qs hids hkeys
    cases qs with
    | nil => simp at hids
    | cons q qt =>
      simp only [List.map_cons, List.cons.injEq] at hids
      obtain ⟨hpq1, hids⟩ := hids
      cases pt with
      | nil =>
        have hqt : qt = [] := by
          have : qt.map Prod.fst = [] := hids.symm
          exact List.map_eq_nil.mp this
        subst hqt
        have : pairChars p = pairChars q := hkeys
        rw [pairChars_injective this]
      | cons p₂ pt₂ =>
        cases qt with
        | nil => simp at hids
        | cons q₂ qt₂ =>
          have hkeys2 : pairChars p ++ '|' :: joinSep ((p₂ :: pt₂).map pairChars) =
              pairChars q ++ '|' :: joinSep ((q₂ :: qt₂).map pairChars) := hkeys
          have hlen : (pairChars p).length = (pairChars q).length := by
            simp [pairChars, hpq1]
          obtain ⟨hpq, htail⟩ := List.append_inj hkeys2 hlen
          have htail2 : joinSep ((p₂ :: pt₂).map pairChars) =
              joinSep ((q₂ :: qt₂).map pairChars) := by
            simpa using htail
          rw [pairChars_injective hpq, ih (q₂ :: qt₂) hids htail2]

/-- Two runs with pointwise-equal comment ids but different internal
flags always get different keys, whatever characters the ids contain. -/
theorem key_ne_of_flags_ne (cs₁ cs₂ : List CommentAnn) (t₁ t₂ : String)
    (hids : cs₁.map (fun c => c.commentId.getD "") =
      cs₂.map (fun c => c.commentId.getD ""))
    (hflags : cs₁.map (fun c => c.internal.getD false) ≠
      cs₂.map (fun c => c.internal.getD false)) :
    getCommentKey ⟨t₁, .array cs₁⟩ ≠ getCommentKey ⟨t₂, .array cs₂⟩ := by
  intro hkeys
  apply hflags
  have hnorm : cs₁.map normComment = cs₂.map normComment := by
    cases hcs₁ : cs₁ with
    | nil =>
      rw [hcs₁] at hids
      have : cs₂.map (fun c => c.commentId.getD "") = [] := hids.symm
      have hcs₂ : cs₂ = [] := List.map_eq_nil.mp this
      rw [hcs₂]
    | cons c t =>
      cases hcs₂ : cs₂ with
      | nil =>
        rw [hcs₁, hcs₂] at hids
        simp at hids
      | cons d u =>
        rw [hcs₁, hcs₂] at hkeys hids
        have hd₁ := getCommentKey_data (c :: t) t₁ (by simp)
        have hd₂ := getCommentKey_data (d :: u) t₂ (by simp)
        have hjoin : joinSep (((c :: t).map normComment).map pairChars) =
            joinSep (((d :: u).map normComment).map pairChars) := by
          rw [← hd₁, ← hd₂, hkeys]
        have hids2 : ((c :: t).map normComment).map Prod.fst =
            ((d :: u).map normComment).map Prod.fst := by
          simpa [List.map_map, normComment, Function.comp] using hids
        exact joinSep_pair_inj_of_same_ids _ _ hids2 hjoin
  calc cs₁.map (fun c => c.internal.getD false)
      = (cs₁.map normComment).map Prod.snd := by
        simp [List.map_map, normComment, Function.comp]
    _ = (cs₂.map normComment).map Prod.snd := by rw [hnorm]
    _ = cs₂.map (fun c => c.internal.getD false) := by
        simp [List.map_map, normComment, Function.comp]

/-- A comment is "good" when its (normalised) id contains neither
separator character. -/
def goodAnn (c : CommentAnn) : Prop :=
  '|' ∉ (c.commentId.getD "").data ∧ ':' ∉ (c.commentId.getD "").data

instance (c : CommentAnn) : Decidable (goodAnn c) := by
  unfold goodAnn
  infer_instance

theorem key_ne_of_norm_ne_good (cs₁ cs₂ : List CommentAnn) (t₁ t₂ : String)
    (hg₁ : ∀ c ∈ cs₁, goodAnn c) (hg₂ : ∀ c ∈ cs₂, goodAnn c)
    (hne : cs₁.map normComment ≠ cs₂.map normComment) :
    getCommentKey ⟨t₁, .array cs₁⟩ ≠ getCommentKey ⟨t₂, .array cs₂⟩ := by
  intro hkeys
  exact hne (getCommentKey_inj_on_good cs₁ cs₂ t₁ t₂ hg₁ hg₂ hkeys)

/-- C8 (amended).  `getCommentKey` serialises a run's comments as
`commentId:internalFlag` pairs joined by `|`, preserving comment order;
runs without a `comments` field or with a non-array value (and runs with
an empty array) get the empty key.  Two runs with pointwise-equal
comment ids but different internal flags always get different keys.
Two runs whose comments differ in order get different keys *provided no
commentId contains the `|` or `:` separator characters* — the unescaped
separators make the unrestricted order clause false (see the
counterexample). -/
theorem claim_C8_comment_key_serialization :
    (∀ r : Run, r.comments = .absent → getCommentKey r = "") ∧
    (∀ r : Run, r.comments = .nonArray → getCommentKey r = "") ∧
    (∀ t cs, getCommentKey ⟨t, .array cs⟩ =
      if cs.isEmpty then "" else joinBar (cs.map commentPairKey)) ∧
    (∀ t₁ t₂ cs₁ cs₂,
      cs₁.map (fun c => c.commentId.getD "") =
        cs₂.map (fun c => c.commentId.getD "") →
      cs₁.map (fun c => c.internal.getD false) ≠
        cs₂.map (fun c => c.internal.getD false) →
      getCommentKey ⟨t₁, .array cs₁⟩ ≠ getCommentKey ⟨t₂, .array cs₂⟩) ∧
    (∀ t₁ t₂ cs₁ cs₂, (∀ c ∈ cs₁, goodAnn c) → (∀ c ∈ cs₂, goodAnn c) →
      cs₁.map normComment ≠ cs₂.map normComment →
      getCommentKey ⟨t₁, .array cs₁⟩ ≠ getCommentKey ⟨t₂, .array cs₂⟩) := by
  refine ⟨?_, ?_, ?_, fun t₁ t₂ cs₁ cs₂ => key_ne_of_flags_ne cs₁ cs₂ t₁ t₂,
    fun t₁ t₂ cs₁ cs₂ => key_ne_of_norm_ne_good cs₁ cs₂ t₁ t₂⟩
  · intro r h
    obtain ⟨t, c⟩ := r
    simp only at h
    subst h
    rfl
  · intro r h
    obtain ⟨t, c⟩ := r
    simp only at h
    subst h
    rfl
  · intro t cs
    cases cs with
    | nil => rfl
    | cons c ct => simp [getCommentKey, hasComments]

/-- C8 counterexample: because `|` and `:` are not escaped inside a
commentId, two runs whose comments are the same two annotations in the
opposite order can still get the same key. -/
theorem claim_C8_counterexample :
    getCommentKey ⟨"t", .array
        [⟨some "a:0|a", some false⟩, ⟨some "a", some false⟩]⟩ =
      getCommentKey ⟨"t", .array
        [⟨some "a", some false⟩, ⟨some "a:0|a", some false⟩]⟩ ∧
    ([⟨some "a:0|a", some false⟩, ⟨some "a", some false⟩] : List CommentAnn) ≠
      [⟨some "a", some false⟩, ⟨some "a:0|a", some false⟩] ∧
    List.Perm
      ([⟨some "a:0|a", some false⟩, ⟨some "a", some false⟩] : List CommentAnn)
      [⟨some "a", some false⟩, ⟨some "a:0|a", some false⟩] := by
  refine ⟨by decide, by decide, ?_⟩
  exact List.Perm.swap _ _ _

/-- C9: `getCommentKey` is not injective — one comment whose id contains
the separator collides with two separate comments. -/
theorem claim_C9_comment_key_not_injective :
    ∃ r₁ r₂ : Run, r₁.comments ≠ r₂.comments ∧
      (∃ cs₁ cs₂, r₁.comments = .array cs₁ ∧ r₂.comments = .array cs₂ ∧
        cs₁.length = 1 ∧ cs₂.length = 2) ∧
      getCommentKey r₁ = getCommentKey r₂ := by
  refine ⟨⟨"t", .array [⟨some "a:0|b", some false⟩]⟩,
    ⟨"t", .array [⟨some "a", some false⟩, ⟨some "b", some false⟩]⟩,
    by decide, ⟨_, _, rfl, rfl, rfl, rfl⟩, by decide⟩

/-- C10: a run whose `comments` field is an empty array gets the empty
key — the same key as a run with no `comments` field at all. -/
theorem claim_C10_empty_comments_key (r r2 : Run)
    (h : r.comments = .array []) (h2 : r2.comments = .absent) :
    getCommentKey r = "" ∧ getCommentKey r = getCommentKey r2 := by
  obtain ⟨t, c⟩ := r
  obtain ⟨t2, c2⟩ := r2
  simp only at h h2
  subst h
  subst h2
  exact ⟨rfl, rfl⟩

theorem claim_C10_witness :
    (Run.mk "x" (.array [])).comments = .array [] ∧
    (Run.mk "y" .absent).comments = .absent ∧
    (getCommentKey ⟨"x", .array []⟩ = "" ∧
      getCommentKey ⟨"x", .array []⟩ = getCommentKey ⟨"y", .absent⟩) :=
  ⟨rfl, rfl, claim_C10_empty_comments_key ⟨"x", .array []⟩ ⟨"y", .absent⟩ rfl rfl⟩

/-- Witness for C8: the absent-comments clause and the restricted order
clause, applied at concrete runs. -/
theorem claim_C8_witness :
    getCommentKey ⟨"t", .absent⟩ = "" ∧
    getCommentKey ⟨"t", .array [⟨some "a", some false⟩, ⟨some "b", some true⟩]⟩ ≠
      getCommentKey ⟨"t", .array [⟨some "b", some true⟩, ⟨some "a", some false⟩]⟩ :=
  ⟨claim_C8_comment_key_serialization.1 ⟨"t", .absent⟩ rfl,
   claim_C8_comment_key_serialization.2.2.2.2 "t" "t" _ _
     (by decide) (by decide) (by decide)⟩

end Diff

namespace TabResolver

/-- Modelled from the spec: the leader styles carried through untouched
by the Tab Stop Resolver (`dot`, `heavy`, `hyphen`, `middleDot`,
`underscore`, `none`). -/
inductive Leader where
  | dot
  | heavy
  | hyphen
  | middleDot
  | underscore
  | none
deriving DecidableEq, Repr

/-- Modelled from the spec: a TabStop `{position, alignment,
leaderStyle}`; `val` is the alignment, unused by width computation.
Pixel quantities are modelled as exact integers. -/
structure TabStop where
  pos : ℤ
  val : String
  leader : Leader
deriving DecidableEq, Repr

/-- Modelled from the spec: a paragraph's ordered leaf spans
`{Text, Tab(id), LineBreak, HardBreak}`, each with a stable id; a Text
span carries the text whose width the measurement provider supplies. -/
inductive Span where
  | text (spanId : String) (content : String)
  | tab (tabId : String)
  | lineBreak (spanId : String)
  | hardBreak (spanId : String)
deriving DecidableEq, Repr

/-- Modelled from the spec: paragraph indents (left, right, firstLine,
hanging). -/
structure Indents where
  left : ℤ
  right : ℤ
  firstLine : ℤ
  hanging : ℤ
deriving DecidableEq, Repr

/-- Modelled from the spec: the request consumed by
`calculateTabLayout` — spans, configured tab stops, paragraph width,
default tab distance and indents. -/
structure TabLayoutRequest where
  spans : List Span
  tabStops : List TabStop
  paragraphWidth : ℤ
  defaultTabDistance : ℤ
  indents : Indents
deriving Repr

/-- One resolved tab: its fill width and the leader style carried
through untouched.  (The source also carries a CSS height taken from
line metrics; it never affects widths and is not modelled.) -/
structure TabEntry where
  width : ℤ
  leader : Leader
deriving DecidableEq, Repr

/-- Modelled from the spec: the result map `tabId ↦ {width, leader}`,
as an association list in span order. -/
structure TabLayoutResult where
  tabs : List (String × TabEntry)
deriving DecidableEq, Repr

/-- The external measurement provider: `measureText(spanId, text)`. -/
abbrev MeasureFn : Type := String → String → ℤ

/-- Modelled from the spec: the line-start offset (indent-adjusted) to
which a LineBreak/HardBreak resets `currentX`. -/
def lineStart (req : TabLayoutRequest) : ℤ := req.indents.left

/-- Modelled from the spec: `currentX` starts at the line's indent
offset (left indent plus first-line indent). -/
def initialX (req : TabLayoutRequest) : ℤ :=
  req.indents.left + req.indents.firstLine

/-- The first configured TabStop whose position is strictly greater
than `currentX`. -/
def findStop (stops : List TabStop) (x : ℤ) : Option TabStop :=
  stops.find? (fun s => decide (x < s.pos))

/-- The next multiple of `defaultTabDistance` strictly past `currentX`
(integer floor division). -/
def nextDefaultTarget (d x : ℤ) : ℤ := d * (x / d + 1)

/-- Modelled from the spec: a Tab's target is the first configured stop
strictly past `currentX`; with no such stop, the next default-distance
multiple, clamped to not exceed `paragraphWidth − indents.right`.  The
stop's leader style is carried through; the default target has no
leader. -/
def tabTarget (req : TabLayoutRequest) (x : ℤ) : ℤ × Leader :=
  match findStop req.tabStops x with
  | some s => (s.pos, s.leader)
  | Option.none =>
    (min (nextDefaultTarget req.defaultTabDistance x)
      (req.paragraphWidth - req.indents.right), Leader.none)

/-- Modelled from the spec: one step of the span walk.  Text advances
`currentX` by its measured width; Tab emits `target − currentX`
(clamped at 0, keeping the spec's "always ≥ 0") and moves `currentX` to
the target; LineBreak/HardBreak reset `currentX` to the line start. -/
def calcStep (req : TabLayoutRequest) (m : MeasureFn)
    (st : ℤ × List (String × TabEntry)) (sp : Span) :
    ℤ × List (String × TabEntry) :=
  match sp with
  | .text sid content => (st.1 + m sid content, st.2)
  | .tab tid =>
    let t := tabTarget req st.1
    (max st.1 t.1, st.2 ++ [(tid, ⟨max 0 (t.1 - st.1), t.2⟩)])
  | .lineBreak _ => (lineStart req, st.2)
  | .hardBreak _ => (lineStart req, st.2)

/-- Modelled from the spec: `calculateTabLayout(request, measure)` walks
the paragraph's span sequence in order from the initial indent offset
and collects the resolved tabs. -/
def calculateTabLayout (req : TabLayoutRequest) (m : MeasureFn) :
    TabLayoutResult :=
  ⟨(req.spans.foldl (calcStep req m) (initialX req, [])).2⟩

theorem calcStep_width_nonneg (req : TabLayoutRequest) (m : MeasureFn)
    (st : ℤ × List (String × TabEntry)) (sp : Span)
    (h : ∀ p ∈ st.2, 0 ≤ p.2.width) :
    ∀ p ∈ (calcStep req m st sp).2, 0 ≤ p.2.width := by
  cases sp with
  | text sid content => exact h
  | tab tid =>
    intro p hp
    rcases List.mem_append.mp hp with hl | hr
    · exact h p hl
    · have : p = (tid, ⟨max 0 ((tabTarget req st.1).1 - st.1), (tabTarget req st.1).2⟩) := by
        simpa using hr
      rw [this]
      exact le_max_left 0 _
  | lineBreak sid => exact h
  | hardBreak sid => exact h

theorem foldl_width_nonneg (req : TabLayoutRequest) (m : MeasureFn) :
    ∀ (spans : List Span) (st : ℤ × List (String × TabEntry)),
      (∀ p ∈ st.2, 0 ≤ p.2.width) →
      ∀ p ∈ (spans.foldl (calcStep req m) st).2, 0 ≤ p.2.width := by
  intro spans
  induction spans with
  | nil => intro st h; exact h
  | cons sp rest ih =>
    intro st h
    exact ih (calcStep req m st sp) (calcStep_width_nonneg req m st sp h)

theorem findStop_some_spec (stops : List TabStop) (x : ℤ) (s : TabStop)
    (h : findStop stops x = some s) :
    x < s.pos ∧ ∃ l₁ l₂, stops = l₁ ++ s :: l₂ ∧ ∀ s2 ∈ l₁, s2.pos ≤ x := by
  induction stops with
  | nil => simp [findStop] at h
  | cons a t ih =>
    by_cases ha : x < a.pos
    · have : findStop (a :: t) x = some a := by
        simp [findStop, List.find?, ha]
      rw [this] at h
      obtain rfl := Option.some.inj h
      exact ⟨ha, [], t, rfl, by simp⟩
    · have hstep : findStop (a :: t) x = findStop t x := by
        simp [findStop, List.find?, ha]
      rw [hstep] at h
      obtain ⟨hx, l₁, l₂, hsplit, hall⟩ := ih h
      refine ⟨hx, a :: l₁, l₂, by rw [hsplit]; simp, ?_⟩
      intro s2 hs2
      rcases List.mem_cons.mp hs2 with rfl | hmem
      · exact le_of_not_lt ha
      · exact hall s2 hmem

theorem findStop_none_spec (stops : List TabStop) (x : ℤ)
    (h : findStop stops x = Option.none) : ∀ s ∈ stops, s.pos ≤ x := by
  intro s hs
  have := List.find?_eq_none.mp h s hs
  simpa using le_of_not_lt (by simpa using this)

theorem nextDefaultTarget_spec (d x : ℤ) (hd : 0 < d) :
    x < nextDefaultTarget d x ∧
    (∃ k : ℤ, nextDefaultTarget d x = k * d) ∧
    (∀ k : ℤ, x < k * d → nextDefaultTarget d x ≤ k * d) := by
  refine ⟨?_, ⟨x / d + 1, mul_comm _ _⟩, ?_⟩
  · have := Int.lt_ediv_add_one_mul_self x hd
    calc x < (x / d + 1) * d := this
    _ = nextDefaultTarget d x := (mul_comm _ _)
  · intro k hk
    have hdiv : x / d < k := (Int.ediv_lt_iff_lt_mul hd).mpr hk
    have hle : x / d + 1 ≤ k := hdiv
    calc nextDefaultTarget d x = (x / d + 1) * d := mul_comm _ _
    _ ≤ k * d := mul_le_mul_of_nonneg_right hle (le_of_lt hd)

/-- The C4 scenario request: a Tab as the very first span of the
paragraph, one TabStop at position 100. -/
def firstTabRequest : TabLayoutRequest :=
  { spans := [.tab "para-tab-0"],
    tabStops := [⟨100, "start", Leader.none⟩],
    paragraphWidth := 800, defaultTabDistance := 48,
    indents := ⟨0, 0, 0, 0⟩ }

/-- The measurement provider of the adapter tests: 10px per character. -/
def pxMeasure : MeasureFn := fun _ s => (10 : ℤ) * s.length

/-- C4.  A Tab's target is the first configured stop strictly past
`currentX` (first in configuration order); with no stop, the target is
the next `defaultTabDistance` multiple past `currentX` (a multiple, past
`currentX`, and the least such), clamped by `paragraphWidth −
indents.right`; the emitted width is `target − currentX`, never
negative, and `currentX` becomes the target; a first-span Tab with a
stop at 100 resolves to width 100. -/
theorem claim_C4_tab_width_rule :
    (∀ req x s, findStop req.tabStops x = some s →
      (tabTarget req x).1 = s.pos ∧ x < s.pos ∧
      ∃ l₁ l₂, req.tabStops = l₁ ++ s :: l₂ ∧ ∀ s2 ∈ l₁, s2.pos ≤ x) ∧
    (∀ req x, findStop req.tabStops x = Option.none →
      (∀ s ∈ req.tabStops, s.pos ≤ x) ∧
      (tabTarget req x).1 = min (nextDefaultTarget req.defaultTabDistance x)
        (req.paragraphWidth - req.indents.right)) ∧
    (∀ d x : ℤ, 0 < d → x < nextDefaultTarget d x ∧
      (∃ k : ℤ, nextDefaultTarget d x = k * d) ∧
      (∀ k : ℤ, x < k * d → nextDefaultTarget d x ≤ k * d)) ∧
    (∀ req m st tid, calcStep req m st (.tab tid) =
      (max st.1 (tabTarget req st.1).1,
        st.2 ++ [(tid, ⟨max 0 ((tabTarget req st.1).1 - st.1),
          (tabTarget req st.1).2⟩)])) ∧
    (∀ req m p, p ∈ (calculateTabLayout req m).tabs → 0 ≤ p.2.width) ∧
    (calculateTabLayout firstTabRequest pxMeasure).tabs =
      [("para-tab-0", ⟨100, Leader.none⟩)] := by
  refine ⟨?_, ?_, nextDefaultTarget_spec, fun req m st tid => rfl, ?_, by decide⟩
  · intro req x s h
    obtain ⟨hx, l₁, l₂, hsplit, hall⟩ := findStop_some_spec req.tabStops x s h
    refine ⟨?_, hx, l₁, l₂, hsplit, hall⟩
    simp [tabTarget, h]
  · intro req x h
    refine ⟨findStop_none_spec req.tabStops x h, ?_⟩
    simp [tabTarget, h]
  · intro req m p hp
    exact foldl_width_nonneg req m req.spans (initialX req, []) (by simp) p hp

theorem claim_C4_witness :
    (findStop firstTabRequest.tabStops 0 = some ⟨100, "start", Leader.none⟩ ∧
      (tabTarget firstTabRequest 0).1 = 100) ∧
    ((0 : ℤ) < 48 ∧ (50 : ℤ) < nextDefaultTarget 48 50) :=
  ⟨⟨by decide,
    by rw [(claim_C4_tab_width_rule.1 firstTabRequest 0
      ⟨100, "start", Leader.none⟩ (by decide)).1]⟩,
   ⟨by decide, (claim_C4_tab_width_rule.2.2.1 48 50 (by decide)).1⟩⟩

/-- The C5 scenario request: `[Text "Label", Tab, Text "Tail",
LineBreak, Text "Label", Tab, Text "Tail"]` with one TabStop at 100 and
`defaultTabDistance = 48`. -/
def breakResetRequest : TabLayoutRequest :=
  { spans := [.text "s1" "Label", .tab "para-1-tab-0", .text "s2" "Tail",
      .lineBreak "br1", .text "s3" "Label", .tab "para-1-tab-1",
      .text "s4" "Tail"],
    tabStops := [⟨100, "start", Leader.none⟩],
    paragraphWidth := 800, defaultTabDistance := 48,
    indents := ⟨0, 0, 0, 0⟩ }

/-- C5.  LineBreak and HardBreak reset `currentX` to the line-start
offset, whatever width was accumulated before the break, and in the
two-line scenario both tabs resolve to width 50. -/
theorem claim_C5_break_resets_currentX :
    (∀ req m st sid, calcStep req m st (.lineBreak sid) = (lineStart req, st.2)) ∧
    (∀ req m st sid, calcStep req m st (.hardBreak sid) = (lineStart req, st.2)) ∧
    (∀ req, lineStart req = req.indents.left) ∧
    (calculateTabLayout breakResetRequest pxMeasure).tabs =
      [("para-1-tab-0", ⟨50, Leader.none⟩), ("para-1-tab-1", ⟨50, Leader.none⟩)] :=
  ⟨fun req m st sid => rfl, fun req m st sid => rfl, fun req => rfl, by decide⟩

/-- Modelled from the spec: the paragraph node tree that
`applyLayoutResult` walks — text leaves (ProseMirror size = character
count), tab leaves (size 1), and run containers (size = children + 2
open/close tokens). -/
inductive PNode where
  | text (size : ℕ)
  | tab
  | run (children : List PNode)

mutual

def PNode.nodeSize : PNode → ℕ
  | .text n => n
  | .tab => 1
  | .run cs => 2 + nodeSizeList cs

def nodeSizeList : List PNode → ℕ
  | [] => 0
  | c :: rest => c.nodeSize + nodeSizeList rest

end

mutual

def PNode.tabCount : PNode → ℕ
  | .text _ => 0
  | .tab => 1
  | .run cs => tabCountList cs

def tabCountList : List PNode → ℕ
  | [] => 0
  | c :: rest => c.tabCount + tabCountList rest

end

/-- The paragraph root: a container of child nodes. -/
structure Paragraph where
  children : List PNode

/-- One tab's layout data as consumed by `applyLayoutResult`; the
leader is optional (absent leader → no border decoration style). -/
structure TabData where
  width : ℤ
  leader : Option Leader
deriving DecidableEq, Repr

/-- The layout result handed to `applyLayoutResult`: the paragraph id
and the `tabId ↦ data` map. -/
structure ApplyResult where
  paragraphId : String
  tabs : List (String × TabData)
deriving DecidableEq, Repr

/-- Tab ids are generated as `paragraphId-tab-index` in traversal
order, as in the adapter and its tests. -/
def tabKey (pid : String) (idx : ℕ) : String :=
  pid ++ "-tab-" ++ toString idx

/-- A positioned tab decoration at document offsets
`[fromPos, toPos)`. -/
structure Decoration where
  fromPos : ℕ
  toPos : ℕ
  data : TabData
deriving DecidableEq, Repr

mutual

/-- Modelled from the spec: walk one node at absolute position `pos`
with running tab index `idx`; a Tab whose generated id is present in
the map emits exactly one decoration, an absent one is skipped; run
containers are recursed into (their content starts one token inside). -/
def applyWalkNode (tabs : List (String × TabData)) (pid : String) :
    PNode → ℕ → ℕ → List Decoration × ℕ
  | .text _, _, idx => ([], idx)
  | .tab, pos, idx =>
    match List.lookup (tabKey pid idx) tabs with
    | some d => ([⟨pos, pos + 1, d⟩], idx + 1)
    | Option.none => ([], idx + 1)
  | .run cs, pos, idx => applyWalkList tabs pid cs (pos + 1) idx

/-- Walk a child list left to right, each child offset by the
accumulated node sizes. -/
def applyWalkList (tabs : List (String × TabData)) (pid : String) :
    List PNode → ℕ → ℕ → List Decoration × ℕ
  | [], _, idx => ([], idx)
  | c :: rest, pos, idx =>
    let r1 := applyWalkNode tabs pid c pos idx
    let r2 := applyWalkList tabs pid rest (pos + c.nodeSize) r1.2
    (r1.1 ++ r2.1, r2.2)

end

/-- Modelled from the spec: `applyLayoutResult(result, paragraphNode,
baseOffset)` walks the paragraph's node tree (recursing into nested run
containers) and, for each Tab span whose id is present in
`result.tabs`, emits a positioned decoration at that span's document
offset; tabs without layout data are skipped.  Total by construction —
no exception path exists. -/
def applyLayoutResult (res : ApplyResult) (para : Paragraph)
    (base : ℕ) : List Decoration :=
  (applyWalkList res.tabs res.paragraphId para.children (base + 1) 0).1

mutual

theorem applyWalkNode_spec (tabs : List (String × TabData)) (pid : String)
    (n : PNode) (pos idx : ℕ) :
    (applyWalkNode tabs pid n pos idx).2 = idx + n.tabCount ∧
    (applyWalkNode tabs pid n pos idx).1.length =
      ((List.range' idx n.tabCount).map (tabKey pid)).countP
        (fun k => (List.lookup k tabs).isSome) := by
  cases n with
  | text m => simp [applyWalkNode, PNode.tabCount]
  | tab =>
    cases h : List.lookup (tabKey pid idx) tabs with
    | none =>
      simp [applyWalkNode, PNode.tabCount, h, List.range',
        List.countP_cons, List.countP_nil]
    | some d =>
      simp [applyWalkNode, PNode.tabCount, h, List.range',
        List.countP_cons, List.countP_nil]
  | run cs =>
    have h := applyWalkList_spec tabs pid cs (pos + 1) idx
    exact ⟨h.1, h.2⟩

theorem applyWalkList_spec (tabs : List (String × TabData)) (pid : String)
    (l : List PNode) (pos idx : ℕ) :
    (applyWalkList tabs pid l pos idx).2 = idx + tabCountList l ∧
    (applyWalkList tabs pid l pos idx).1.length =
      ((List.range' idx (tabCountList l)).map (tabKey pid)).countP
        (fun k => (List.lookup k tabs).isSome) := by
  cases l with
  | nil => simp [applyWalkList, tabCountList]
  | cons c rest =>
    have h1 := applyWalkNode_spec tabs pid c pos idx
    have h2 := applyWalkList_spec tabs pid rest (pos + c.nodeSize)
      (applyWalkNode tabs pid c pos idx).2
    constructor
    · show (applyWalkList tabs pid rest (pos + c.nodeSize)
        (applyWalkNode tabs pid c pos idx).2).2 = idx + tabCountList (c :: rest)
      rw [h2.1, h1.1, tabCountList]
      ring
    · show ((applyWalkNode tabs pid c pos idx).1 ++
        (applyWalkList tabs pid rest (pos + c.nodeSize)
          (applyWalkNode tabs pid c pos idx).2).1).length = _
      rw [List.length_append, h1.2, h2.2, h1.1]
      have hsplit : List.range' idx (tabCountList (c :: rest)) =
          List.range' idx c.tabCount ++
            List.range' (idx + c.tabCount) (tabCountList rest) := by
        rw [tabCountList, Nat.add_comm c.tabCount (tabCountList rest)]
        exact (List.range'_append_1 idx c.tabCount (tabCountList rest)).symm
      rw [hsplit, List.map_append, List.countP_append]

end

/-- C6.  `applyLayoutResult` emits exactly one decoration per Tab span
whose generated id is in the result map and zero per absent id (its
decoration count equals the number of present ids among the
traversal-ordered tab keys); an empty map yields no decorations; and
the adapter-test scenarios — a tab nested two runs deep decorated at
offsets [5,6), and a missing second tab skipped — evaluate as the tests
assert.  The function is total, so no exception path exists. -/
theorem claim_C6_one_decoration_per_present_tab :
    (∀ res para base, (applyLayoutResult res para base).length =
      ((List.range (tabCountList para.children)).map
        (tabKey res.paragraphId)).countP
          (fun k => (List.lookup k res.tabs).isSome)) ∧
    (∀ res para base, res.tabs = [] → applyLayoutResult res para base = []) ∧
    applyLayoutResult ⟨"para-0", [("para-0-tab-0", ⟨50, some Leader.heavy⟩)]⟩
      ⟨[.run [.text 1, .run [.text 1, .tab]]]⟩ 0 =
        [⟨5, 6, ⟨50, some Leader.heavy⟩⟩] ∧
    applyLayoutResult ⟨"para-0", [("para-0-tab-0", ⟨15, Option.none⟩)]⟩
      ⟨[.run [.tab, .text 2, .tab]]⟩ 0 = [⟨2, 3, ⟨15, Option.none⟩⟩] := by
  refine ⟨?_, ?_, by decide, by decide⟩
  · intro res para base
    have h := applyWalkList_spec res.tabs res.paragraphId para.children
      (base + 1) 0
    rw [applyLayoutResult, h.2, List.range_eq_range']
  · intro res para base h
    have hlen : (applyLayoutResult res para base).length = 0 := by
      have h2 := applyWalkList_spec res.tabs res.paragraphId para.children
        (base + 1) 0
      rw [applyLayoutResult, h2.2, h]
      simp [List.lookup]
    exact List.length_eq_zero.mp hlen

theorem claim_C6_witness :
    (ApplyResult.mk "para-0" []).tabs = [] ∧
    applyLayoutResult ⟨"para-0", []⟩ ⟨[.run [.tab]]⟩ 0 = [] :=
  ⟨rfl, claim_C6_one_decoration_per_present_tab.2.1 ⟨"para-0", []⟩
    ⟨[.run [.tab]]⟩ 0 rfl⟩

end TabResolver

namespace Packer

/-- Modelled from the spec: page geometry inputs (width/height). -/
structure PageSize where
  w : ℤ
  h : ℤ
deriving DecidableEq, Repr

/-- Modelled from the spec: the four page margins. -/
structure Margins where
  top : ℤ
  right : ℤ
  bottom : ℤ
  left : ℤ
deriving DecidableEq, Repr

/-- Modelled from the spec: column count and gutter. -/
structure ColumnLayout where
  count : ℕ
  gap : ℤ
deriving DecidableEq, Repr

/-- Modelled from the spec: `LayoutOptions { pageSize, margins,
columns }`.  The `remeasureParagraph` callback is only consulted when a
column/page transition changes the available width; with one uniform
page geometry per pass (as here) the width never changes, so the
callback is never invoked and is not modelled. -/
structure LayoutOptions where
  pageSize : PageSize
  margins : Margins
  columns : ColumnLayout
deriving DecidableEq, Repr

/-- Modelled from the spec: the FlowBlock discriminated union, each
alternative carrying its stable identity. -/
inductive FlowBlock where
  | paragraph (id : String)
  | table (id : String)
  | image (id : String)
  | pageBreak (id : String)
deriving DecidableEq, Repr

def FlowBlock.id : FlowBlock → String
  | .paragraph i => i
  | .table i => i
  | .image i => i
  | .pageBreak i => i

/-- Modelled from the spec: the Measure union parallel to FlowBlock —
paragraph line-box heights, table per-row heights, image intrinsic
size; a page break carries no geometry. -/
inductive Measure where
  | paragraph (lineHeights : List ℤ)
  | table (rowHeights : List ℤ)
  | image (w h : ℤ)
  | control
deriving DecidableEq, Repr

/-- The splittable content units of a block/measure pair: paragraph
lines, table rows, or the image as one atomic unit.  A page break has
no content; a kind-misaligned pair (a caller contract violation per
spec §7d) also contributes no content. -/
def unitHeights : FlowBlock → Measure → List ℤ
  | .paragraph _, .paragraph ls => ls
  | .table _, .table rs => rs
  | .image _, .image _ h => [h]
  | _, _ => []

/-- Modelled from the spec: a placed, positioned slice of a block's
content — `{blockId, contentRange, x, y, width, height}` — plus the
overflow flag surfaced when an unsplittable unit exceeds a full
page/column. -/
structure Fragment where
  blockId : String
  startUnit : ℕ
  endUnit : ℕ
  x : ℤ
  y : ℤ
  width : ℤ
  height : ℤ
  overflow : Bool
deriving DecidableEq, Repr

/-- The content-range of a fragment, as the list of unit indices it
covers. -/
def unitRange (f : Fragment) : List ℕ :=
  List.range' f.startUnit (f.endUnit - f.startUnit)

/-- Modelled from the spec: `Column { fragments }`. -/
structure Column where
  fragments : List Fragment
deriving DecidableEq, Repr

/-- Modelled from the spec: `Page { columns }`. -/
structure Page where
  columns : List Column
deriving DecidableEq, Repr

/-- Modelled from the spec: `Layout { pages }`. -/
structure Layout where
  pages : List Page
deriving DecidableEq, Repr

/-- Content-box geometry derived from options: top/bottom of the
content box, column count (at least 1), column width and x-positions. -/
structure Geometry where
  contentTop : ℤ
  contentBottom : ℤ
  colCount : ℕ
  colWidth : ℤ
  colGap : ℤ
  marginLeft : ℤ
deriving DecidableEq, Repr

def geometry (opts : LayoutOptions) : Geometry :=
  let cc := max 1 opts.columns.count
  let totalW := opts.pageSize.w - opts.margins.left - opts.margins.right
  { contentTop := opts.margins.top,
    contentBottom := opts.pageSize.h - opts.margins.bottom,
    colCount := cc,
    colWidth := (totalW - opts.columns.gap * ((cc : ℤ) - 1)) / cc,
    colGap := opts.columns.gap,
    marginLeft := opts.margins.left }

def Geometry.colX (g : Geometry) (i : ℕ) : ℤ :=
  g.marginLeft + i * (g.colWidth + g.colGap)

def Geometry.contentHeight (g : Geometry) : ℤ :=
  g.contentBottom - g.contentTop

/-- Modelled from the spec: the packer cursor state — the page list
built so far (fragments are appended to the last column of the last
page), the current column index and the cursor y. -/
structure PackState where
  pages : List Page
  columnIndex : ℕ
  cursorY : ℤ
deriving DecidableEq, Repr

def initState (g : Geometry) : PackState :=
  ⟨[⟨[⟨[]⟩]⟩], 0, g.contentTop⟩

/-- Append a fragment to the last column of a column list. -/
def appendFragCols : List Column → Fragment → List Column
  | [], f => [⟨[f]⟩]
  | [c], f => [⟨c.fragments ++ [f]⟩]
  | c :: rest, f => c :: appendFragCols rest f

/-- Append a fragment to the last column of the last page. -/
def appendFragPages : List Page → Fragment → List Page
  | [], f => [⟨[⟨[f]⟩]⟩]
  | [p], f => [⟨appendFragCols p.columns f⟩]
  | p :: rest, f => p :: appendFragPages rest f

def emit (st : PackState) (f : Fragment) : PackState :=
  { st with pages := appendFragPages st.pages f }

/-- Open a fresh (empty) column on the last page. -/
def appendColPages : List Page → List Page
  | [] => [⟨[⟨[]⟩]⟩]
  | [p] => [⟨p.columns ++ [⟨[]⟩]⟩]
  | p :: rest => p :: appendColPages rest

/-- Modelled from the spec: advance to a fresh page (new page with one
empty column, cursor at the content top). -/
def advancePage (g : Geometry) (st : PackState) : PackState :=
  ⟨st.pages ++ [⟨[⟨[]⟩]⟩], 0, g.contentTop⟩

/-- Modelled from the spec: advance to the next column of the current
page, or to a fresh page when the last column is full. -/
def advanceColumn (g : Geometry) (st : PackState) : PackState :=
  if st.columnIndex + 1 < g.colCount then
    ⟨appendColPages st.pages, st.columnIndex + 1, g.contentTop⟩
  else advancePage g st

/-- How many leading units fit in `avail` (greedy cumulative sum). -/
def maxFit (avail : ℤ) : List ℤ → ℕ
  | [] => 0
  | h :: t => if h ≤ avail then maxFit (avail - h) t + 1 else 0

/-- Modelled from the spec: place a block's splittable units greedily.
Take the maximal prefix of units fitting at the current cursor and emit
one fragment for it; when nothing fits, advance to the next
column/page; when even a single unit exceeds a whole fresh column, the
unit is still placed — with the overflow flag — rather than dropped, to
avoid an infinite loop. -/
def placeUnits (g : Geometry) (bid : String) :
    PackState → ℕ → List ℤ → PackState
  | st, _, [] => st
  | ⟨pages, ci, y⟩, done, u :: rest =>
    let curK := maxFit (g.contentBottom - y) (u :: rest)
    if hcur : 0 < curK then
      placeUnits g bid
        ⟨appendFragPages pages ⟨bid, done, done + curK, g.colX ci, y,
          g.colWidth, ((u :: rest).take curK).sum, false⟩, ci,
          y + ((u :: rest).take curK).sum⟩
        (done + curK) ((u :: rest).drop curK)
    else if y = g.contentTop then
      placeUnits g bid
        ⟨appendFragPages pages ⟨bid, done, done + 1, g.colX ci, y,
          g.colWidth, u, true⟩, ci, y + u⟩
        (done + 1) rest
    else
      let st1 := advanceColumn g ⟨pages, ci, y⟩
      let topK := maxFit g.contentHeight (u :: rest)
      if htop : 0 < topK then
        placeUnits g bid
          ⟨appendFragPages st1.pages ⟨bid, done, done + topK,
            g.colX st1.columnIndex, st1.cursorY, g.colWidth,
            ((u :: rest).take topK).sum, false⟩, st1.columnIndex,
            st1.cursorY + ((u :: rest).take topK).sum⟩
          (done + topK) ((u :: rest).drop topK)
      else
        placeUnits g bid
          ⟨appendFragPages st1.pages ⟨bid, done, done + 1,
            g.colX st1.columnIndex, st1.cursorY, g.colWidth, u, true⟩,
            st1.columnIndex, st1.cursorY + u⟩
          (done + 1) rest
termination_by _ _ units => units.length
decreasing_by
  all_goals simp [List.length_drop]
  all_goals omega

/-- Modelled from the spec: place one block.  A page break forces a new
page; every other block places its units (paragraph lines, table rows,
or the image as one atomic unit). -/
def placeBlock (g : Geometry) (st : PackState)
    (bm : FlowBlock × Measure) : PackState :=
  match bm.1 with
  | .pageBreak _ => advancePage g st
  | _ => placeUnits g bm.1.id st 0 (unitHeights bm.1 bm.2)

/-- Modelled from the spec: `layoutDocument(blocks, measures, options)`
walks the blocks strictly in input order (index-aligned with their
measures) and greedily stacks fragments inside the content box of each
page/column. -/
def layoutDocument (blocks : List FlowBlock) (measures : List Measure)
    (opts : LayoutOptions) : Layout :=
  let g := geometry opts
  ⟨((blocks.zip measures).foldl (placeBlock g) (initState g)).pages⟩

/-- All fragments of a page list, flattened in page → column → fragment
order — the order in which the layout presents them. -/
def flatten (ps : List Page) : List Fragment :=
  (ps.map (fun p => (p.columns.map Column.fragments).join)).join

/-- All fragments of a layout, in order. -/
def Layout.frags (l : Layout) : List Fragment := flatten l.pages

theorem flatten_append (ps qs : List Page) :
    flatten (ps ++ qs) = flatten ps ++ flatten qs := by
  simp [flatten]

theorem appendFragCols_join (cols : List Column) (f : Fragment) :
    ((appendFragCols cols f).map Column.fragments).join =
      (cols.map Column.fragments).join ++ [f] := by
  match cols with
  | [] => rfl
  | [c] => simp [appendFragCols]
  | c :: c2 :: rest =>
    show ((c :: appendFragCols (c2 :: rest) f).map Column.fragments).join = _
    simp only [List.map_cons, List.join_cons, appendFragCols_join (c2 :: rest) f]
    simp

theorem flatten_cons (p : Page) (ps : List Page) :
    flatten (p :: ps) = (p.columns.map Column.fragments).join ++ flatten ps := rfl

theorem flatten_appendFragPages (ps : List Page) (f : Fragment) :
    flatten (appendFragPages ps f) = flatten ps ++ [f] := by
  match ps with
  | [] => rfl
  | [p] => simp [appendFragPages, flatten, appendFragCols_join]
  | p :: p2 :: rest =>
    show flatten (p :: appendFragPages (p2 :: rest) f) = _
    rw [flatten_cons, flatten_appendFragPages (p2 :: rest) f]
    simp [flatten_cons, List.append_assoc]

theorem flatten_appendColPages (ps : List Page) :
    flatten (appendColPages ps) = flatten ps := by
  match ps with
  | [] => rfl
  | [p] => simp [appendColPages, flatten]
  | p :: p2 :: rest =>
    show flatten (p :: appendColPages (p2 :: rest)) = _
    rw [flatten_cons, flatten_appendColPages (p2 :: rest)]
    simp [flatten_cons]

theorem emit_flatten (st : PackState) (f : Fragment) :
    flatten (emit st f).pages = flatten st.pages ++ [f] :=
  flatten_appendFragPages st.pages f

theorem advancePage_flatten (g : Geometry) (st : PackState) :
    flatten (advancePage g st).pages = flatten st.pages := by
  show flatten (st.pages ++ [⟨[⟨[]⟩]⟩]) = flatten st.pages
  rw [flatten_append]
  simp [flatten]

theorem advanceColumn_flatten (g : Geometry) (st : PackState) :
    flatten (advanceColumn g st).pages = flatten st.pages := by
  rw [advanceColumn]
  split
  · exact flatten_appendColPages st.pages
  · exact advancePage_flatten g st

theorem maxFit_le_length (avail : ℤ) (l : List ℤ) : maxFit avail l ≤ l.length := by
  induction l generalizing avail with
  | nil => simp [maxFit]
  | cons h t ih =>
    rw [maxFit]
    split
    · exact Nat.succ_le_succ (ih (avail - h))
    · exact Nat.zero_le _

theorem placeUnits_spec (g : Geometry) (bid : String) :
    ∀ (n : ℕ) (units : List ℤ), units.length ≤ n → ∀ (st : PackState) (done : ℕ),
      ∃ fs, flatten (placeUnits g bid st done units).pages = flatten st.pages ++ fs ∧
        (∀ f ∈ fs, f.blockId = bid) ∧
        (fs.map unitRange).join = List.range' done units.length := by
  intro n
  induction n with
  | zero =>
    intro units hlen st done
    have hnil : units = [] := List.length_eq_zero.mp (Nat.le_zero.mp hlen)
    subst hnil
    exact ⟨[], by simp [placeUnits], by simp, by simp [List.range']⟩
  | succ n ih =>
    intro units hlen st done
    cases units with
    | nil => exact ⟨[], by simp [placeUnits], by simp, by simp [List.range']⟩
    | cons u rest =>
      obtain ⟨pages, ci, y⟩ := st
      rw [placeUnits]
      have hfit := maxFit_le_length (g.contentBottom - y) (u :: rest)
      have hfit2 := maxFit_le_length g.contentHeight (u :: rest)
      split
      case isTrue hcur =>
        set curK := maxFit (g.contentBottom - y) (u :: rest) with hK
        have hlen2 : ((u :: rest).drop curK).length ≤ n := by
          simp only [List.length_drop, List.length_cons] at *
          omega
        obtain ⟨fs2, h1, h2, h3⟩ := ih _ hlen2
          ⟨appendFragPages pages ⟨bid, done, done + curK, g.colX ci, y,
            g.colWidth, ((u :: rest).take curK).sum, false⟩, ci,
            y + ((u :: rest).take curK).sum⟩ (done + curK)
        refine ⟨⟨bid, done, done + curK, g.colX ci, y, g.colWidth,
          ((u :: rest).take curK).sum, false⟩ :: fs2, ?_, ?_, ?_⟩
        · rw [h1]
          show flatten (appendFragPages pages _) ++ fs2 = _
          rw [flatten_appendFragPages]
          simp
        · intro f hf
          rcases List.mem_cons.mp hf with rfl | hmem
          · rfl
          · exact h2 f hmem
        · simp only [List.map_cons, List.join_cons, h3, List.length_drop]
          show List.range' done (done + curK - done) ++ _ = _
          have hdd : done + curK - done = curK := by omega
          rw [hdd]
          have := List.range'_append_1 done curK ((u :: rest).length - curK)
          rw [this]
          congr 1
          simp only [List.length_cons] at *
          omega
      case isFalse hcur =>
        split
        case isTrue htopY =>
          have hlen2 : rest.length ≤ n := by
            simp only [List.length_cons] at hlen
            omega
          obtain ⟨fs2, h1, h2, h3⟩ := ih _ hlen2
            ⟨appendFragPages pages ⟨bid, done, done + 1, g.colX ci, y,
              g.colWidth, u, true⟩, ci, y + u⟩ (done + 1)
          refine ⟨⟨bid, done, done + 1, g.colX ci, y, g.colWidth, u, true⟩ :: fs2,
            ?_, ?_, ?_⟩
          · rw [h1]
            show flatten (appendFragPages pages _) ++ fs2 = _
            rw [flatten_appendFragPages]
            simp
          · intro f hf
            rcases List.mem_cons.mp hf with rfl | hmem
            · rfl
            · exact h2 f hmem
          · simp only [List.map_cons, List.join_cons, h3]
            show List.range' done (done + 1 - done) ++ _ = _
            have hdd : done + 1 - done = 1 := by omega
            rw [hdd]
            have := List.range'_append_1 done 1 rest.length
            rw [this]
            simp
        case isFalse htopY =>
          dsimp only
          split
          case isTrue htop =>
            set topK := maxFit g.contentHeight (u :: rest) with hK
            have hlen2 : ((u :: rest).drop topK).length ≤ n := by
              simp only [List.length_drop, List.length_cons] at *
              omega
            obtain ⟨fs2, h1, h2, h3⟩ := ih _ hlen2
              ⟨appendFragPages (advanceColumn g ⟨pages, ci, y⟩).pages
                ⟨bid, done, done + topK,
                  g.colX (advanceColumn g ⟨pages, ci, y⟩).columnIndex,
                  (advanceColumn g ⟨pages, ci, y⟩).cursorY, g.colWidth,
                  ((u :: rest).take topK).sum, false⟩,
                (advanceColumn g ⟨pages, ci, y⟩).columnIndex,
                (advanceColumn g ⟨pages, ci, y⟩).cursorY +
                  ((u :: rest).take topK).sum⟩ (done + topK)
            refine ⟨⟨bid, done, done + topK,
              g.colX (advanceColumn g ⟨pages, ci, y⟩).columnIndex,
              (advanceColumn g ⟨pages, ci, y⟩).cursorY, g.colWidth,
              ((u :: rest).take topK).sum, false⟩ :: fs2, ?_, ?_, ?_⟩
            · rw [h1]
              show flatten (appendFragPages _ _) ++ fs2 = _
              rw [flatten_appendFragPages]
              have hadv := advanceColumn_flatten g ⟨pages, ci, y⟩
              rw [hadv]
              simp
            · intro f hf
              rcases List.mem_cons.mp hf with rfl | hmem
              · rfl
              · exact h2 f hmem
            · simp only [List.map_cons, List.join_cons, h3, List.length_drop]
              show List.range' done (done + topK - done) ++ _ = _
              have hdd : done + topK - done = topK := by omega
              rw [hdd]
              have := List.range'_append_1 done topK ((u :: rest).length - topK)
              rw [this]
              congr 1
              simp only [List.length_cons] at *
              omega
          case isFalse htop =>
            have hlen2 : rest.length ≤ n := by
              simp only [List.length_cons] at hlen
              omega
            obtain ⟨fs2, h1, h2, h3⟩ := ih _ hlen2
              ⟨appendFragPages (advanceColumn g ⟨pages, ci, y⟩).pages
                ⟨bid, done, done + 1,
                  g.colX (advanceColumn g ⟨pages, ci, y⟩).columnIndex,
                  (advanceColumn g ⟨pages, ci, y⟩).cursorY, g.colWidth, u, true⟩,
                (advanceColumn g ⟨pages, ci, y⟩).columnIndex,
                (advanceColumn g ⟨pages, ci, y⟩).cursorY + u⟩ (done + 1)
            refine ⟨⟨bid, done, done + 1,
              g.colX (advanceColumn g ⟨pages, ci, y⟩).columnIndex,
              (advanceColumn g ⟨pages, ci, y⟩).cursorY, g.colWidth, u, true⟩ :: fs2,
              ?_, ?_, ?_⟩
            · rw [h1]
              show flatten (appendFragPages _ _) ++ fs2 = _
              rw [flatten_appendFragPages]
              have hadv := advanceColumn_flatten g ⟨pages, ci, y⟩
              rw [hadv]
              simp
            · intro f hf
              rcases List.mem_cons.mp hf with rfl | hmem
              · rfl
              · exact h2 f hmem
            · simp only [List.map_cons, List.join_cons, h3]
              show List.range' done (done + 1 - done) ++ _ = _
              have hdd : done + 1 - done = 1 := by omega
              rw [hdd]
              have := List.range'_append_1 done 1 rest.length
              rw [this]
              simp

theorem placeBlock_spec (g : Geometry) (st : PackState)
    (bm : FlowBlock × Measure) :
    ∃ fs, flatten (placeBlock g st bm).pages = flatten st.pages ++ fs ∧
      (∀ f ∈ fs, f.blockId = bm.1.id) ∧
      (fs.map unitRange).join =
        List.range' 0 (unitHeights bm.1 bm.2).length := by
  obtain ⟨blk, msr⟩ := bm
  cases blk with
  | pageBreak i =>
    refine ⟨[], ?_, by simp, by simp [unitHeights, List.range']⟩
    show flatten (advancePage g st).pages = _
    rw [advancePage_flatten]
    simp
  | paragraph i =>
    exact placeUnits_spec g (FlowBlock.paragraph i).id
      (unitHeights (.paragraph i) msr).length _ le_rfl st 0
  | table i =>
    exact placeUnits_spec g (FlowBlock.table i).id
      (unitHeights (.table i) msr).length _ le_rfl st 0
  | image i =>
    exact placeUnits_spec g (FlowBlock.image i).id
      (unitHeights (.image i) msr).length _ le_rfl st 0

theorem foldl_flatten_mono (g : Geometry) :
    ∀ (bms : List (FlowBlock × Measure)) (st : PackState),
      ∃ fs, flatten ((bms.foldl (placeBlock g) st).pages) =
          flatten st.pages ++ fs ∧
        ∀ f ∈ fs, ∃ bm ∈ bms, f.blockId = bm.1.id := by
  intro bms
  induction bms with
  | nil => intro st; exact ⟨[], by simp, by simp⟩
  | cons bm rest ih =>
    intro st
    obtain ⟨fs1, h1, h2, _⟩ := placeBlock_spec g st bm
    obtain ⟨fs2, h3, h4⟩ := ih (placeBlock g st bm)
    refine ⟨fs1 ++ fs2, ?_, ?_⟩
    · rw [List.foldl_cons, h3, h1, List.append_assoc]
    · intro f hf
      rcases List.mem_append.mp hf with hm | hm
      · exact ⟨bm, List.mem_cons_self bm rest, h2 f hm⟩
      · obtain ⟨bm2, hbm2, hid⟩ := h4 f hm
        exact ⟨bm2, List.mem_cons_of_mem bm hbm2, hid⟩

theorem pack_cov (g : Geometry) :
    ∀ (bms : List (FlowBlock × Measure)) (st : PackState) (i : ℕ)
      (hi : i < bms.length),
      (∀ j (hj : j < bms.length), j ≠ i →
        (bms.get ⟨j, hj⟩).1.id ≠ (bms.get ⟨i, hi⟩).1.id) →
      (∀ f ∈ flatten st.pages, f.blockId ≠ (bms.get ⟨i, hi⟩).1.id) →
      (((flatten ((bms.foldl (placeBlock g) st).pages)).filter
          (fun f => decide (f.blockId = (bms.get ⟨i, hi⟩).1.id))).map
            unitRange).join =
        List.range' 0
          (unitHeights (bms.get ⟨i, hi⟩).1 (bms.get ⟨i, hi⟩).2).length := by
  intro bms
  induction bms with
  | nil => intro st i hi; exact absurd hi (by simp)
  | cons bm rest ih =>
    intro st i hi huniq hfresh
    cases i with
    | zero =>
      obtain ⟨fs1, h1, h2, h3⟩ := placeBlock_spec g st bm
      obtain ⟨fs2, h4, h5⟩ := foldl_flatten_mono g rest (placeBlock g st bm)
      rw [List.foldl_cons, h4, h1, List.append_assoc]
      have htgt : (((bm :: rest).get ⟨0, hi⟩)) = bm := rfl
      rw [htgt] at *
      rw [List.filter_append, List.filter_append]
      have hf0 : (flatten st.pages).filter
          (fun f => decide (f.blockId = bm.1.id)) = [] := by
        rw [List.filter_eq_nil]
        intro f hf
        simpa using hfresh f hf
      have hf1 : fs1.filter (fun f => decide (f.blockId = bm.1.id)) = fs1 := by
        rw [List.filter_eq_self]
        intro f hf
        simpa using h2 f hf
      have hf2 : fs2.filter (fun f => decide (f.blockId = bm.1.id)) = [] := by
        rw [List.filter_eq_nil]
        intro f hf
        obtain ⟨bm2, hbm2, hid⟩ := h5 f hf
        obtain ⟨⟨j, hj⟩, hget⟩ := List.mem_iff_get.mp hbm2
        have hne := huniq (j + 1) (by simpa using hj) (by simp)
        have : (rest.get ⟨j, hj⟩).1.id ≠ bm.1.id := hne
        simp only [decide_eq_true_eq]
        rw [hid, hget] at *
        exact this
      rw [hf0, hf1, hf2]
      simpa using h3
    | succ j =>
      obtain ⟨fs1, h1, h2, h3⟩ := placeBlock_spec g st bm
      have hj : j < rest.length := by simpa using hi
      have htgt : ((bm :: rest).get ⟨j + 1, hi⟩) = rest.get ⟨j, hj⟩ := rfl
      rw [List.foldl_cons]
      rw [htgt] at *
      have huniq2 : ∀ k (hk : k < rest.length), k ≠ j →
          (rest.get ⟨k, hk⟩).1.id ≠ (rest.get ⟨j, hj⟩).1.id := by
        intro k hk hkj
        have := huniq (k + 1) (by simpa using hk) (by simpa using hkj)
        simpa using this
      have hfresh2 : ∀ f ∈ flatten (placeBlock g st bm).pages,
          f.blockId ≠ (rest.get ⟨j, hj⟩).1.id := by
        intro f hf
        rw [h1] at hf
        rcases List.mem_append.mp hf with hm | hm
        · exact hfresh f hm
        · have hid := h2 f hm
          have hne := huniq 0 (by simp) (by simp)
          rw [hid]
          exact hne
      exact ih (placeBlock g st bm) j hj huniq2 hfresh2

theorem pack_counts (g : Geometry) :
    ∀ (bms : List (FlowBlock × Measure)) (st : PackState),
      ∃ counts : List ℕ, counts.length = bms.length ∧
        (flatten ((bms.foldl (placeBlock g) st).pages)).map Fragment.blockId =
          (flatten st.pages).map Fragment.blockId ++
            (List.zipWith (fun (bm : FlowBlock × Measure) (k : ℕ) =>
              List.replicate k bm.1.id) bms counts).join ∧
        ∀ i (hi : i < bms.length) (hi2 : i < counts.length),
          (unitHeights (bms.get ⟨i, hi⟩).1 (bms.get ⟨i, hi⟩).2).length ≠ 0 →
            counts.get ⟨i, hi2⟩ ≠ 0 := by
  intro bms
  induction bms with
  | nil => intro st; exact ⟨[], rfl, by simp, by simp⟩
  | cons bm rest ih =>
    intro st
    obtain ⟨fs1, h1, h2, h3⟩ := placeBlock_spec g st bm
    obtain ⟨counts, hc1, hc2, hc3⟩ := ih (placeBlock g st bm)
    refine ⟨fs1.length :: counts, by simpa using hc1, ?_, ?_⟩
    · rw [List.foldl_cons, hc2, h1]
      have hrep : fs1.map Fragment.blockId =
          List.replicate fs1.length bm.1.id := by
        rw [List.eq_replicate]
        exact ⟨by simp, by
          intro b hb
          obtain ⟨f, hf, rfl⟩ := List.mem_map.mp hb
          exact h2 f hf⟩
      simp only [List.map_append, hrep, List.zipWith_cons_cons, List.join_cons,
        List.append_assoc]
    · intro i hi hi2 hz
      cases i with
      | zero =>
        simp only [List.get] at *
        intro h0
        have hfs : fs1 = [] := List.length_eq_zero.mp h0
        rw [hfs] at h3
        simp only [List.map_nil, List.join_nil] at h3
        have : (unitHeights bm.1 bm.2).length = 0 := by
          by_contra hne
          have := List.range'_eq_nil.mp h3.symm
          exact hne this
        exact hz this
      | succ j =>
        have hj : j < rest.length := by simpa using hi
        have hj2 : j < counts.length := by simpa using hi2
        have := hc3 j hj hj2
        simpa using fun hzz => this (by simpa using hz) (by simpa using hzz)

theorem advanceColumn_cursorY (g : Geometry) (st : PackState) :
    (advanceColumn g st).cursorY = g.contentTop := by
  rw [advanceColumn]
  split <;> rfl

theorem placeUnits_cursor (g : Geometry) (bid : String) :
    ∀ (n : ℕ) (units : List ℤ), units.length ≤ n → ∀ (st : PackState) (done : ℕ),
      g.contentTop ≤ st.cursorY → (∀ u ∈ units, 0 ≤ u) →
      g.contentTop ≤ (placeUnits g bid st done units).cursorY := by
  intro n
  induction n with
  | zero =>
    intro units hlen st done hcy _
    have hnil : units = [] := List.length_eq_zero.mp (Nat.le_zero.mp hlen)
    subst hnil
    simpa [placeUnits] using hcy
  | succ n ih =>
    intro units hlen st done hcy hnn
    cases units with
    | nil => simpa [placeUnits] using hcy
    | cons u rest =>
      obtain ⟨pages, ci, y⟩ := st
      rw [placeUnits]
      have hfit := maxFit_le_length (g.contentBottom - y) (u :: rest)
      split
      case isTrue hcur =>
        refine ih _ ?_ _ _ ?_ ?_
        · simp only [List.length_drop, List.length_cons] at *
          omega
        · show g.contentTop ≤ y + ((u :: rest).take _).sum
          have hsum : 0 ≤ ((u :: rest).take
              (maxFit (g.contentBottom - y) (u :: rest))).sum :=
            List.sum_nonneg (fun x hx => hnn x (List.mem_of_mem_take hx))
          simp only [PackState.cursorY] at hcy
          omega
        · intro x hx
          exact hnn x (List.mem_of_mem_drop hx)
      case isFalse hcur =>
        split
        case isTrue htopY =>
          refine ih _ ?_ _ _ ?_ ?_
          · simp only [List.length_cons] at hlen
            omega
          · show g.contentTop ≤ y + u
            have hu : 0 ≤ u := hnn u (List.mem_cons_self u rest)
            simp only [PackState.cursorY] at hcy
            omega
          · intro x hx
            exact hnn x (List.mem_cons_of_mem u hx)
        case isFalse htopY =>
          dsimp only
          have hadv := advanceColumn_cursorY g ⟨pages, ci, y⟩
          split
          case isTrue htop =>
            refine ih _ ?_ _ _ ?_ ?_
            · simp only [List.length_drop, List.length_cons] at *
              have := maxFit_le_length g.contentHeight (u :: rest)
              omega
            · show g.contentTop ≤ (advanceColumn g ⟨pages, ci, y⟩).cursorY +
                ((u :: rest).take _).sum
              have hsum : 0 ≤ ((u :: rest).take
                  (maxFit g.contentHeight (u :: rest))).sum :=
                List.sum_nonneg (fun x hx => hnn x (List.mem_of_mem_take hx))
              omega
            · intro x hx
              exact hnn x (List.mem_of_mem_drop hx)
          case isFalse htop =>
            refine ih _ ?_ _ _ ?_ ?_
            · simp only [List.length_cons] at hlen
              omega
            · show g.contentTop ≤ (advanceColumn g ⟨pages, ci, y⟩).cursorY + u
              have hu : 0 ≤ u := hnn u (List.mem_cons_self u rest)
              omega
            · intro x hx
              exact hnn x (List.mem_cons_of_mem u hx)

theorem placeBlock_cursor (g : Geometry) (st : PackState)
    (bm : FlowBlock × Measure) (hcy : g.contentTop ≤ st.cursorY)
    (hnn : ∀ u ∈ unitHeights bm.1 bm.2, 0 ≤ u) :
    g.contentTop ≤ (placeBlock g st bm).cursorY := by
  obtain ⟨blk, msr⟩ := bm
  cases blk with
  | pageBreak i => exact le_of_eq rfl
  | paragraph i =>
    exact placeUnits_cursor g (FlowBlock.paragraph i).id
      (unitHeights (.paragraph i) msr).length _ le_rfl st 0 hcy hnn
  | table i =>
    exact placeUnits_cursor g (FlowBlock.table i).id
      (unitHeights (.table i) msr).length _ le_rfl st 0 hcy hnn
  | image i =>
    exact placeUnits_cursor g (FlowBlock.image i).id
      (unitHeights (.image i) msr).length _ le_rfl st 0 hcy hnn

theorem placeUnits_overflow (g : Geometry) (bid : String) (st : PackState)
    (done : ℕ) (h : ℤ) (hge : g.contentTop ≤ st.cursorY)
    (hbig : g.contentHeight < h) :
    ∃ f, flatten (placeUnits g bid st done [h]).pages =
        flatten st.pages ++ [f] ∧ f.blockId = bid ∧ f.overflow = true := by
  obtain ⟨pages, ci, y⟩ := st
  rw [placeUnits]
  have hcur : maxFit (g.contentBottom - y) [h] = 0 := by
    rw [maxFit, if_neg]
    intro hle
    simp only [Geometry.contentHeight, PackState.cursorY] at *
    omega
  have htopK : maxFit g.contentHeight [h] = 0 := by
    rw [maxFit, if_neg]
    omega
  rw [hcur]
  rw [dif_neg (by omega)]
  by_cases htop : y = g.contentTop
  · rw [if_pos htop]
    refine ⟨⟨bid, done, done + 1, g.colX ci, y, g.colWidth, h, true⟩, ?_, rfl, rfl⟩
    show flatten (placeUnits g bid _ (done + 1) []).pages = _
    rw [placeUnits]
    exact flatten_appendFragPages pages _
  · rw [if_neg htop]
    dsimp only
    rw [htopK, dif_neg (by omega)]
    refine ⟨⟨bid, done, done + 1,
      g.colX (advanceColumn g ⟨pages, ci, y⟩).columnIndex,
      (advanceColumn g ⟨pages, ci, y⟩).cursorY, g.colWidth, h, true⟩,
      ?_, rfl, rfl⟩
    show flatten (placeUnits g bid _ (done + 1) []).pages = _
    rw [placeUnits]
    rw [flatten_appendFragPages, advanceColumn_flatten]

theorem fold_overflow (g : Geometry) :
    ∀ (pre : List (FlowBlock × Measure)) (st : PackState) (i : String)
      (w h : ℤ) (post : List (FlowBlock × Measure)),
      g.contentTop ≤ st.cursorY →
      (∀ bm ∈ pre, ∀ u ∈ unitHeights bm.1 bm.2, 0 ≤ u) →
      g.contentHeight < h →
      ∃ f ∈ flatten (((pre ++ (FlowBlock.image i, Measure.image w h) :: post).foldl
          (placeBlock g) st).pages), f.blockId = i ∧ f.overflow = true := by
  intro pre
  induction pre with
  | nil =>
    intro st i w h post hcy _ hbig
    rw [List.nil_append, List.foldl_cons]
    have hpb : placeBlock g st (FlowBlock.image i, Measure.image w h) =
        placeUnits g i st 0 [h] := rfl
    obtain ⟨f, h1, h2, h3⟩ := placeUnits_overflow g i st 0 h hcy hbig
    obtain ⟨fs2, h4, _⟩ := foldl_flatten_mono g post
      (placeBlock g st (FlowBlock.image i, Measure.image w h))
    refine ⟨f, ?_, h2, h3⟩
    rw [h4, hpb, h1]
    simp
  | cons bm pre2 ih =>
    intro st i w h post hcy hnn hbig
    rw [List.cons_append, List.foldl_cons]
    exact ih (placeBlock g st bm) i w h post
      (placeBlock_cursor g st bm hcy (hnn bm (List.mem_cons_self bm pre2)))
      (fun bm2 hbm2 => hnn bm2 (List.mem_cons_of_mem bm hbm2)) hbig

theorem get_zip_pair (b : List FlowBlock) (m : List Measure) (i : ℕ)
    (hib : i < b.length) (him : i < m.length) (hzi : i < (b.zip m).length) :
    (b.zip m).get ⟨i, hzi⟩ = (b.get ⟨i, hib⟩, m.get ⟨i, him⟩) := by
  simp [List.get_eq_getElem, List.getElem_zip]

theorem nodup_id_ne (b : List FlowBlock)
    (hnodup : (b.map FlowBlock.id).Nodup) (j i : ℕ)
    (hj : j < b.length) (hi : i < b.length) (hne : j ≠ i) :
    (b.get ⟨j, hj⟩).id ≠ (b.get ⟨i, hi⟩).id := by
  intro heq
  have hmap : (b.map FlowBlock.id).get ⟨j, by simpa using hj⟩ =
      (b.map FlowBlock.id).get ⟨i, by simpa using hi⟩ := by
    simp only [List.get_eq_getElem, List.getElem_map]
    exact heq
  have := hnodup.get_inj_iff.mp hmap
  exact hne (by simpa using this)

theorem zipWith_replicate_zip :
    ∀ (b : List FlowBlock) (m : List Measure), m.length = b.length →
      ∀ (cnts : List ℕ),
        List.zipWith (fun (bm : FlowBlock × Measure) (k : ℕ) =>
          List.replicate k bm.1.id) (b.zip m) cnts =
        List.zipWith (fun (blk : FlowBlock) (k : ℕ) =>
          List.replicate k blk.id) b cnts := by
  intro b
  induction b with
  | nil => intro m _ cnts; simp
  | cons blk bt ih =>
    intro m hm cnts
    cases m with
    | nil => simp at hm
    | cons msr mt =>
      cases cnts with
      | nil => simp
      | cons k kt =>
        simp only [List.zip_cons_cons, List.zipWith_cons_cons]
        rw [ih mt (by simpa using hm) kt]

/-- C3.  `layoutDocument` is a pure function of its three inputs: the
embedding carries no hidden state, so structurally equal inputs give
structurally equal Layout values. -/
theorem claim_C3_layout_deterministic (b b2 : List FlowBlock)
    (m m2 : List Measure) (o o2 : LayoutOptions)
    (hb : b = b2) (hm : m = m2) (ho : o = o2) :
    layoutDocument b m o = layoutDocument b2 m2 o2 := by
  subst hb; subst hm; subst ho; rfl

/-- C7.  A non-splittable (image) block whose measured height exceeds
the full content-box height is still placed: some fragment of the
layout carries its id with the overflow flag set — it is never dropped,
and the total function raises nothing. -/
theorem claim_C7_oversize_placed_with_overflow (blocks : List FlowBlock)
    (measures : List Measure) (opts : LayoutOptions) (i : ℕ) (bid : String)
    (w h : ℤ) (hib : i < blocks.length) (him : i < measures.length)
    (hblk : blocks.get ⟨i, hib⟩ = FlowBlock.image bid)
    (hmsr : measures.get ⟨i, him⟩ = Measure.image w h)
    (hnn : ∀ bm ∈ blocks.zip measures, ∀ u ∈ unitHeights bm.1 bm.2, 0 ≤ u)
    (hbig : (geometry opts).contentHeight < h) :
    ∃ f ∈ (layoutDocument blocks measures opts).frags,
      f.blockId = bid ∧ f.overflow = true := by
  have hzi : i < (blocks.zip measures).length := by
    rw [List.length_zip]
    omega
  have hgeti : (blocks.zip measures).get ⟨i, hzi⟩ =
      (FlowBlock.image bid, Measure.image w h) := by
    rw [get_zip_pair blocks measures i hib him hzi, hblk, hmsr]
  have hsplit : blocks.zip measures =
      (blocks.zip measures).take i ++
        (FlowBlock.image bid, Measure.image w h) ::
          (blocks.zip measures).drop (i + 1) := by
    conv_lhs => rw [← List.take_append_drop i (blocks.zip measures)]
    rw [← List.get_cons_drop (blocks.zip measures) ⟨i, hzi⟩, hgeti]
  have hnnpre : ∀ bm ∈ (blocks.zip measures).take i,
      ∀ u ∈ unitHeights bm.1 bm.2, 0 ≤ u :=
    fun bm hbm => hnn bm (List.mem_of_mem_take hbm)
  obtain ⟨f, hf, h2, h3⟩ := fold_overflow (geometry opts)
    ((blocks.zip measures).take i) (initState (geometry opts)) bid w h
    ((blocks.zip measures).drop (i + 1)) le_rfl hnnpre hbig
  refine ⟨f, ?_, h2, h3⟩
  show f ∈ flatten (((blocks.zip measures).foldl (placeBlock (geometry opts))
    (initState (geometry opts))).pages)
  rw [hsplit]
  exact hf

/-- C1.  For every block (distinct block ids, index-aligned measures),
the ordered concatenation of the content-ranges of the block's
fragments, in layout order, is exactly the block's full content range
`[0, unit count)` — no unit lost, none duplicated.  (The model places
table rows atomically and never re-emits a repeating header, so the
spec's marked-continuation exception for merged cells never arises and
the equality is exact.) -/
theorem claim_C1_fragments_cover_block_exactly (blocks : List FlowBlock)
    (measures : List Measure) (opts : LayoutOptions) (i : ℕ)
    (hlen : measures.length = blocks.length)
    (hnodup : (blocks.map FlowBlock.id).Nodup)
    (hib : i < blocks.length) (him : i < measures.length) :
    ((((layoutDocument blocks measures opts).frags).filter
        (fun f => decide (f.blockId = (blocks.get ⟨i, hib⟩).id))).map
          unitRange).join =
      List.range
        (unitHeights (blocks.get ⟨i, hib⟩) (measures.get ⟨i, him⟩)).length := by
  have hzi : i < (blocks.zip measures).length := by
    rw [List.length_zip]
    omega
  have hgeti : (blocks.zip measures).get ⟨i, hzi⟩ =
      (blocks.get ⟨i, hib⟩, measures.get ⟨i, him⟩) :=
    get_zip_pair blocks measures i hib him hzi
  have huniq : ∀ j (hj : j < (blocks.zip measures).length), j ≠ i →
      ((blocks.zip measures).get ⟨j, hj⟩).1.id ≠
        ((blocks.zip measures).get ⟨i, hzi⟩).1.id := by
    intro j hj hne
    have hjb : j < blocks.length := by
      rw [List.length_zip] at hj
      omega
    have hjm : j < measures.length := by
      rw [List.length_zip] at hj
      omega
    rw [get_zip_pair blocks measures j hjb hjm hj, hgeti]
    exact nodup_id_ne blocks hnodup j i hjb hib hne
  have hfresh : ∀ f ∈ flatten (initState (geometry opts)).pages,
      f.blockId ≠ ((blocks.zip measures).get ⟨i, hzi⟩).1.id := by
    intro f hf
    simp [flatten, initState] at hf
  have hcov := pack_cov (geometry opts) (blocks.zip measures)
    (initState (geometry opts)) i hzi huniq hfresh
  rw [hgeti] at hcov
  rw [List.range_eq_range']
  exact hcov

/-- C2.  `layoutDocument` visits the blocks strictly in input order:
the flattened fragment blockId sequence is the input block id sequence
with each id repeated once per fragment (`counts`), and every block
with content yields at least one fragment — nothing is reordered or
skipped. -/
theorem claim_C2_fragment_order_matches_block_order (blocks : List FlowBlock)
    (measures : List Measure) (opts : LayoutOptions)
    (hlen : measures.length = blocks.length) :
    ∃ counts : List ℕ, counts.length = blocks.length ∧
      ((layoutDocument blocks measures opts).frags).map Fragment.blockId =
        (List.zipWith (fun (b : FlowBlock) (k : ℕ) =>
          List.replicate k b.id) blocks counts).join ∧
      ∀ i (hib : i < blocks.length) (him : i < measures.length)
        (hic : i < counts.length),
        (unitHeights (blocks.get ⟨i, hib⟩) (measures.get ⟨i, him⟩)).length ≠ 0 →
          counts.get ⟨i, hic⟩ ≠ 0 := by
  obtain ⟨counts, hc1, hc2, hc3⟩ := pack_counts (geometry opts)
    (blocks.zip measures) (initState (geometry opts))
  have hzlen : (blocks.zip measures).length = blocks.length := by
    rw [List.length_zip]
    omega
  refine ⟨counts, by rw [hc1, hzlen], ?_, ?_⟩
  · have hinit : (flatten (initState (geometry opts)).pages).map
        Fragment.blockId = [] := rfl
    have : ((layoutDocument blocks measures opts).frags).map Fragment.blockId =
        (List.zipWith (fun (bm : FlowBlock × Measure) (k : ℕ) =>
          List.replicate k bm.1.id) (blocks.zip measures) counts).join := by
      rw [show (layoutDocument blocks measures opts).frags =
        flatten (((blocks.zip measures).foldl (placeBlock (geometry opts))
          (initState (geometry opts))).pages) from rfl, hc2, hinit]
      simp
    rw [this, zipWith_replicate_zip blocks measures hlen counts]
  · intro i hib him hic hz
    have hzi : i < (blocks.zip measures).length := by omega
    have := hc3 i hzi (by omega)
    rw [get_zip_pair blocks measures i hib him hzi] at this
    exact this hz

/-- A small concrete document exercising the packer: a paragraph that
splits across pages, an image taller than a page, a page break and a
trailing paragraph. -/
def demoOpts : LayoutOptions := ⟨⟨600, 100⟩, ⟨10, 10, 10, 10⟩, ⟨1, 0⟩⟩

def demoBlocks : List FlowBlock :=
  [.paragraph "p1", .image "i1", .pageBreak "b1", .paragraph "p2"]

def demoMeasures : List Measure :=
  [.paragraph [30, 30, 30], .image 50 200, .control, .paragraph [40]]

theorem claim_C1_witness :
    demoMeasures.length = demoBlocks.length ∧
    (demoBlocks.map FlowBlock.id).Nodup ∧
    ((((layoutDocument demoBlocks demoMeasures demoOpts).frags).filter
        (fun f => decide (f.blockId =
          (demoBlocks.get ⟨0, by decide⟩).id))).map unitRange).join =
      List.range (unitHeights (demoBlocks.get ⟨0, by decide⟩)
        (demoMeasures.get ⟨0, by decide⟩)).length :=
  ⟨by decide, by decide,
    claim_C1_fragments_cover_block_exactly demoBlocks demoMeasures demoOpts 0
      (by decide) (by decide) (by decide) (by decide)⟩

theorem claim_C2_witness :
    ∃ counts : List ℕ, counts.length = demoBlocks.length ∧
      ((layoutDocument demoBlocks demoMeasures demoOpts).frags).map
          Fragment.blockId =
        (List.zipWith (fun (b : FlowBlock) (k : ℕ) =>
          List.replicate k b.id) demoBlocks counts).join ∧
      ∀ i (hib : i < demoBlocks.length) (him : i < demoMeasures.length)
        (hic : i < counts.length),
        (unitHeights (demoBlocks.get ⟨i, hib⟩)
          (demoMeasures.get ⟨i, him⟩)).length ≠ 0 →
          counts.get ⟨i, hic⟩ ≠ 0 :=
  claim_C2_fragment_order_matches_block_order demoBlocks demoMeasures demoOpts
    (by decide)

theorem claim_C3_witness :
    layoutDocument demoBlocks demoMeasures demoOpts =
      layoutDocument demoBlocks demoMeasures demoOpts :=
  claim_C3_layout_deterministic demoBlocks demoBlocks demoMeasures demoMeasures
    demoOpts demoOpts rfl rfl rfl

theorem claim_C7_witness :
    (geometry demoOpts).contentHeight < 200 ∧
    ∃ f ∈ (layoutDocument demoBlocks demoMeasures demoOpts).frags,
      f.blockId = "i1" ∧ f.overflow = true :=
  ⟨by decide,
    claim_C7_oversize_placed_with_overflow demoBlocks demoMeasures demoOpts 1
      "i1" 50 200 (by decide) (by decide) (by decide) (by decide)
      (by decide) (by decide)⟩

end Packer
